import Mathlib

/-!
Shallow embedding of the Attendance Reconciliation Engine of the FIG-D-H
repository, together with proofs that settle the frozen claims about it.

Conventions used throughout the embedding:
* calendar dates are integers counting days since 1970-01-01, so that
  Python's `date.weekday()` (Monday = 0) becomes `(d + 3) mod 7`;
* absolute timestamps are integers counting seconds since the epoch,
  so the calendar date of a timestamp is its floor-division by 86400 and
  its time of day is its remainder modulo 86400;
* durations are integers (seconds); fractional quantities coming from
  Python floats (credit counts, hour thresholds) are rationals;
* the punch status label is abstracted into the closed set of labels the
  engine actually distinguishes: `C/In`, `C/Out`, and anything else.
-/

namespace Fig

/-- Status label of a punch.  The sources compare the `Status` column
against the literal labels `C/In` / `C/Out` (by equality after
lower-casing in `second_cup_logic.py`, by substring test in
`data_processing.py`); every other value, including the empty string used
when no status column is present, behaves uniformly, so it is collapsed
into `other`. -/
inductive Status where
  | cin
  | cout
  | other
deriving DecidableEq, Repr

/-- Python `int()` on a rational: truncation toward zero. -/
def py_int (q : ℚ) : ℤ :=
  if 0 ≤ q then ⌊q⌋ else ⌈q⌉

/-- Insert an integer into a strictly ascending list, keeping it
strictly ascending (duplicates are dropped). -/
def insert_sorted (x : ℤ) : List ℤ → List ℤ
  | [] => [x]
  | y :: ys => if x < y then x :: y :: ys else if x = y then y :: ys else y :: insert_sorted x ys

/-- Python `sorted(set(l))` on integer dates: the distinct elements in
ascending order. -/
def sorted_set (l : List ℤ) : List ℤ :=
  l.foldr insert_sorted []

theorem mem_insert_sorted {a x : ℤ} : ∀ {l : List ℤ}, a ∈ insert_sorted x l ↔ a = x ∨ a ∈ l
  | [] => by simp [insert_sorted]
  | y :: ys => by
    by_cases h1 : x < y
    · simp [insert_sorted, h1]
    · by_cases h2 : x = y
      · subst h2
        rw [insert_sorted, if_neg h1, if_pos rfl]
        constructor
        · exact fun h => Or.inr h
        · rintro (rfl | h)
          · exact List.mem_cons_self _ _
          · exact h
      · simp only [insert_sorted, if_neg h1, if_neg h2, List.mem_cons,
          @mem_insert_sorted a x ys]
        tauto

theorem sorted_insert_sorted {x : ℤ} :
    ∀ {l : List ℤ}, l.Sorted (· < ·) → (insert_sorted x l).Sorted (· < ·)
  | [], _ => by simp [insert_sorted]
  | y :: ys, h => by
    rcases List.sorted_cons.mp h with ⟨hy, hys⟩
    by_cases h1 : x < y
    · rw [insert_sorted, if_pos h1, List.sorted_cons]
      exact ⟨fun b hb => by
        rcases List.mem_cons.mp hb with rfl | hb
        · exact h1
        · exact h1.trans (hy b hb), h⟩
    · by_cases h2 : x = y
      · rw [insert_sorted, if_neg h1, if_pos h2]; exact h
      · have hyx : y < x := lt_of_le_of_ne (not_lt.mp h1) (Ne.symm h2)
        rw [insert_sorted, if_neg h1, if_neg h2, List.sorted_cons]
        refine ⟨fun b hb => ?_, sorted_insert_sorted hys⟩
        rcases mem_insert_sorted.mp hb with rfl | hb
        · exact hyx
        · exact hy b hb

theorem mem_sorted_set {a : ℤ} : ∀ {l : List ℤ}, a ∈ sorted_set l ↔ a ∈ l
  | [] => by simp [sorted_set]
  | x :: xs => by
    simp only [sorted_set, List.foldr_cons, mem_insert_sorted, List.mem_cons]
    exact or_congr Iff.rfl (@mem_sorted_set a xs)

theorem sorted_set_sorted : ∀ (l : List ℤ), (sorted_set l).Sorted (· < ·)
  | [] => by simp [sorted_set]
  | x :: xs => sorted_insert_sorted (sorted_set_sorted xs)

theorem sorted_set_nodup (l : List ℤ) : (sorted_set l).Nodup :=
  (sorted_set_sorted l).nodup

/-- Two strictly ascending integer lists with the same members are equal. -/
theorem sorted_lt_eq_of_mem_iff :
    ∀ {l₁ l₂ : List ℤ}, l₁.Sorted (· < ·) → l₂.Sorted (· < ·) →
      (∀ a, a ∈ l₁ ↔ a ∈ l₂) → l₁ = l₂
  | [], [], _, _, _ => rfl
  | [], y :: ys, _, _, hm => absurd ((hm y).mpr (List.mem_cons_self y ys)) (List.not_mem_nil y)
  | x :: xs, [], _, _, hm => absurd ((hm x).mp (List.mem_cons_self x xs)) (List.not_mem_nil x)
  | x :: xs, y :: ys, h1, h2, hm => by
    rcases List.sorted_cons.mp h1 with ⟨hx, hxs⟩
    rcases List.sorted_cons.mp h2 with ⟨hy, hys⟩
    have hxy : x = y := by
      rcases List.mem_cons.mp ((hm x).mp (List.mem_cons_self x xs)) with h | h
      · exact h
      · rcases List.mem_cons.mp ((hm y).mpr (List.mem_cons_self y ys)) with h' | h'
        · exact h'.symm
        · exact absurd (lt_trans (hx y h') (hy x h)) (lt_irrefl x)
    subst hxy
    have hm' : ∀ a, a ∈ xs ↔ a ∈ ys := by
      intro a
      constructor
      · intro ha
        rcases List.mem_cons.mp ((hm a).mp (List.mem_cons_of_mem x ha)) with rfl | h
        · exact absurd (hx a ha) (lt_irrefl a)
        · exact h
      · intro ha
        rcases List.mem_cons.mp ((hm a).mpr (List.mem_cons_of_mem x ha)) with rfl | h
        · exact absurd (hy a ha) (lt_irrefl a)
        · exact h
    rw [sorted_lt_eq_of_mem_iff hxs hys hm']

/-- The function `sorted_set` only depends on the member set. -/
theorem sorted_set_congr {l₁ l₂ : List ℤ} (h : ∀ a, a ∈ l₁ ↔ a ∈ l₂) :
    sorted_set l₁ = sorted_set l₂ :=
  sorted_lt_eq_of_mem_iff (sorted_set_sorted l₁) (sorted_set_sorted l₂)
    (fun a => by rw [mem_sorted_set, mem_sorted_set]; exact h a)

/-- Python `sorted(set(.))` commutes with filtering. -/
theorem sorted_set_filter (l : List ℤ) (p : ℤ → Bool) :
    sorted_set (l.filter p) = (sorted_set l).filter p :=
  sorted_lt_eq_of_mem_iff (sorted_set_sorted _) ((sorted_set_sorted l).filter p)
    (fun a => by simp [List.mem_filter, mem_sorted_set])

/-! ### Compensatory-Off Credit Stage (`pending_offs.py`, `apply_pending_offs`)

Per-employee (per-row) core of `apply_pending_offs`, lines 380-462.
The DataFrame plumbing (merging on `No.`, parsing stored strings back
into lists) is the identity on the per-row data modelled here: a row
carries the baseline numeric count `Final_Absent_Days`, the parsed
`Final_Absent_Dates` list, the credit `Total_Pending_OFFs` and the
`Pending_OFF_Requested_Dates` list. -/

/-- Result row of the credit stage: the cleaned base date list, the
consumed `Pending_OFF_Dates`, the surviving
`Final_Absent_Dates_After_Pending`, and the numeric
`Total_Absent_After_Pending`. -/
structure PendingRow where
  dt_list : List ℤ
  pending : List ℤ
  remaining : List ℤ
  total_after : ℚ
deriving DecidableEq, Repr

/-- The requested-dates loop of `apply_pending_offs` (lines 410-419):
walk the sorted requested dates while credit remains; a requested date
still present in the remaining list is consumed (removed, credit
decremented), any other requested date is skipped without consuming
credit.  Returns the consumed dates in order, the surviving list, and
the credit left. -/
def consume_requested : ℕ → List ℤ → List ℤ → List ℤ × List ℤ × ℕ
  | n, [], rem => ([], rem, n)
  | n, r :: rs, rem =>
    if n = 0 then ([], rem, 0)
    else if r ∈ rem then
      let res := consume_requested (n - 1) rs (rem.erase r)
      (r :: res.1, res.2.1, res.2.2)
    else consume_requested n rs rem

/-- Per-row core of `apply_pending_offs` (`pending_offs.py` lines
380-462).  `b` is the baseline numeric count read from
`Final_Absent_Days`, `dates` the parsed `Final_Absent_Dates`, `c` the
(possibly fractional) `Total_Pending_OFFs` credit and `req` the
`Pending_OFF_Requested_Dates`.  The date logic works on
`sorted(set(dates))`; credit is truncated with `int(...)`; requested
dates present in the list are consumed first, then the most recent
remaining dates (`remaining_dt[-pending_n:]`); the numeric
`Total_Absent_After_Pending` is `(baseline - credit).clip(lower=0)`
(lines 459-462). -/
def apply_pending_offs_row (b : ℚ) (dates : List ℤ) (c : ℚ) (req : List ℤ) : PendingRow :=
  let dts := sorted_set dates
  let reqd := sorted_set req
  let n : ℕ := (py_int c).toNat
  let step1 := if 0 < n then consume_requested n reqd dts else ([], dts, n)
  let p := step1.1
  let rem := step1.2.1
  let k := step1.2.2
  let step2 :=
    if 0 < k ∧ rem ≠ [] then
      if rem.length ≤ k then (p ++ rem, ([] : List ℤ))
      else (p ++ rem.drop (rem.length - k), rem.take (rem.length - k))
    else (p, rem)
  { dt_list := dts
    -- `sorted(set(pending_dt))`
    pending := sorted_set step2.1
    -- `sorted(remaining_dt)`; the removals above keep `remaining_dt`
    -- in ascending order, so the final `sorted` is the identity here
    remaining := step2.2
    total_after := max (b - c) 0 }

/-- The requested-dates loop, characterized declaratively: when the
requested list has no duplicates, it consumes exactly the first
`n` requested dates that are present in the remaining list, erases them,
and returns the unused credit. -/
theorem consume_requested_spec :
    ∀ (req : List ℤ), req.Nodup → ∀ (n : ℕ) (rem : List ℤ),
      consume_requested n req rem =
        (((req.filter (fun r => decide (r ∈ rem))).take n),
          ((req.filter (fun r => decide (r ∈ rem))).take n).foldl List.erase rem,
          n - ((req.filter (fun r => decide (r ∈ rem))).take n).length)
  | [], _, n, rem => by simp [consume_requested]
  | r :: rs, hnd, n, rem => by
    rcases List.nodup_cons.mp hnd with ⟨hr, hnd'⟩
    rcases Nat.eq_zero_or_pos n with rfl | hn
    · simp [consume_requested]
    · rw [consume_requested, if_neg (Nat.pos_iff_ne_zero.mp hn)]
      by_cases hmem : r ∈ rem
      · rw [if_pos hmem]
        have hfc : rs.filter (fun x => decide (x ∈ rem.erase r)) =
            rs.filter (fun x => decide (x ∈ rem)) := by
          refine List.filter_congr (fun x hx => ?_)
          have hxr : x ≠ r := fun h => hr (h ▸ hx)
          simp [List.mem_erase_of_ne hxr]
        have htake : (r :: rs).filter (fun x => decide (x ∈ rem)) =
            r :: rs.filter (fun x => decide (x ∈ rem)) := by
          simp [List.filter_cons, hmem]
        obtain ⟨m, rfl⟩ : ∃ m, n = m + 1 := ⟨n - 1, (Nat.succ_pred_eq_of_pos hn).symm⟩
        have hrec := consume_requested_spec rs hnd' m (rem.erase r)
        simp only [Nat.add_sub_cancel, hrec, hfc, htake, List.take_succ_cons,
          List.foldl_cons, List.length_cons, Prod.mk.injEq]
        exact ⟨trivial, trivial, by omega⟩
      · rw [if_neg hmem]
        have hfc : (r :: rs).filter (fun x => decide (x ∈ rem)) =
            rs.filter (fun x => decide (x ∈ rem)) := by
          simp [List.filter_cons, hmem]
        rw [consume_requested_spec rs hnd' n rem, hfc]

/-- Repeated `List.erase` never adds elements. -/
theorem foldl_erase_subset : ∀ (t l : List ℤ), t.foldl List.erase l ⊆ l
  | [], _ => fun _ h => h
  | x :: ts, l => by
    intro b hb
    simp only [List.foldl_cons] at hb
    exact List.erase_subset x l (foldl_erase_subset ts (l.erase x) hb)

/-- Erasing a list of distinct elements, all present in a list, shortens
it by exactly their number and removes exactly them from the member set. -/
theorem foldl_erase_facts :
    ∀ (t l : List ℤ), t.Nodup → (∀ x ∈ t, x ∈ l) →
      (t.foldl List.erase l).length + t.length = l.length ∧
      (∀ a, a ∈ t.foldl List.erase l ∨ a ∈ t ↔ a ∈ l) ∧
      (l.Nodup → ∀ a ∈ t, a ∉ t.foldl List.erase l)
  | [], l, _, _ => ⟨by simp, fun a => by simp, by simp⟩
  | x :: ts, l, hnd, hsub => by
    rcases List.nodup_cons.mp hnd with ⟨hx, hnd'⟩
    have hxl : x ∈ l := hsub x (List.mem_cons_self x ts)
    have hsub' : ∀ y ∈ ts, y ∈ l.erase x := by
      intro y hy
      have hyx : y ≠ x := fun h => hx (h ▸ hy)
      exact (List.mem_erase_of_ne hyx).mpr (hsub y (List.mem_cons_of_mem x hy))
    obtain ⟨hlen, hmem, hnot⟩ := foldl_erase_facts ts (l.erase x) hnd' hsub'
    refine ⟨?_, ?_, ?_⟩
    · have h1 := List.length_erase_of_mem hxl
      have h2 := List.length_pos_of_mem hxl
      simp only [List.foldl_cons, List.length_cons]
      omega
    · intro a
      simp only [List.foldl_cons, List.mem_cons]
      constructor
      · rintro (h | rfl | h)
        · exact List.erase_subset x l ((hmem a).mp (Or.inl h))
        · exact hxl
        · exact List.erase_subset x l ((hmem a).mp (Or.inr h))
      · intro hal
        by_cases hax : a = x
        · exact Or.inr (Or.inl hax)
        · rcases (hmem a).mpr ((List.mem_erase_of_ne hax).mpr hal) with h | h
          · exact Or.inl h
          · exact Or.inr (Or.inr h)
    · intro hl a ha
      simp only [List.foldl_cons]
      rcases List.mem_cons.mp ha with rfl | ha'
      · exact fun hcon =>
          (List.Nodup.not_mem_erase hl) (foldl_erase_subset ts (l.erase a) hcon)
      · exact hnot (hl.erase x) a ha'

/-- Requested dates the credit stage actually consumes: the first
`int(credit)` sorted requested dates present in the cleaned list. -/
def pending_taken (c : ℚ) (dates req : List ℤ) : List ℤ :=
  ((sorted_set req).filter (fun r => decide (r ∈ sorted_set dates))).take (py_int c).toNat

/-- Cleaned date list left after removing the consumed requested dates. -/
def pending_rem1 (c : ℚ) (dates req : List ℤ) : List ℤ :=
  (pending_taken c dates req).foldl List.erase (sorted_set dates)

/-- Credit left for the most-recent-first fallback. -/
def pending_spare (c : ℚ) (dates req : List ℤ) : ℕ :=
  (py_int c).toNat - (pending_taken c dates req).length

/-- Declarative characterization of the credit stage row: requested
dates present in the list are consumed first; the leftover credit takes
the latest remaining dates (a suffix of the remaining ascending list);
the survivors are the corresponding prefix; the numeric field is the
clipped difference. -/
theorem apply_pending_offs_row_spec (b c : ℚ) (dates req : List ℤ) :
    apply_pending_offs_row b dates c req =
      { dt_list := sorted_set dates
        pending := sorted_set (pending_taken c dates req ++
          (pending_rem1 c dates req).drop
            ((pending_rem1 c dates req).length - pending_spare c dates req))
        remaining := (pending_rem1 c dates req).take
          ((pending_rem1 c dates req).length - pending_spare c dates req)
        total_after := max (b - c) 0 } := by
  have hnd := sorted_set_nodup req
  by_cases h0 : 0 < (py_int c).toNat
  · simp only [apply_pending_offs_row, pending_taken, pending_rem1, pending_spare,
      consume_requested_spec (sorted_set req) hnd, if_pos h0]
    set t := ((sorted_set req).filter fun r => decide (r ∈ sorted_set dates)).take
      (py_int c).toNat with ht
    set r1 := List.foldl List.erase (sorted_set dates) t with hr1
    set k := (py_int c).toNat - t.length with hk
    by_cases h1 : 0 < k ∧ r1 ≠ []
    · rw [if_pos h1]
      by_cases h2 : r1.length ≤ k
      · rw [if_pos h2]
        have hz : r1.length - k = 0 := Nat.sub_eq_zero_of_le h2
        rw [hz]
        simp
      · rw [if_neg h2]
    · rw [if_neg h1]
      rcases not_and_or.mp h1 with hk0 | hr0
      · have hkz : k = 0 := Nat.eq_zero_of_not_pos hk0
        rw [hkz]
        simp
      · have hrz : r1 = [] := not_not.mp hr0
        rw [hrz]
        simp
  · have h0' : (py_int c).toNat = 0 := Nat.eq_zero_of_not_pos h0
    simp only [apply_pending_offs_row, pending_taken, pending_rem1, pending_spare,
      if_neg h0, h0']
    simp

/-- Bookkeeping facts about the consumed requested dates and the list
they leave behind. -/
theorem pending_len_facts (c : ℚ) (dates req : List ℤ) :
    (pending_rem1 c dates req).length + (pending_taken c dates req).length =
        (sorted_set dates).length ∧
      (∀ a, a ∈ pending_rem1 c dates req ∨ a ∈ pending_taken c dates req ↔
        a ∈ sorted_set dates) ∧
      (pending_taken c dates req).length =
        min (py_int c).toNat
          (((sorted_set req).filter (fun r => decide (r ∈ sorted_set dates))).length) := by
  have hnd : (pending_taken c dates req).Nodup :=
    ((sorted_set_nodup req).filter _).sublist (List.take_sublist _ _)
  have hsub : ∀ x ∈ pending_taken c dates req, x ∈ sorted_set dates := by
    intro x hx
    have := List.take_subset _ _ hx
    simpa using (List.mem_filter.mp this).2
  obtain ⟨h1, h2, _⟩ := foldl_erase_facts (pending_taken c dates req) (sorted_set dates) hnd hsub
  exact ⟨h1, h2, List.length_take _ _⟩

/-- Python `int()` of a nonnegative whole rational. -/
theorem py_int_natCast (n : ℕ) : (py_int (n : ℚ)).toNat = n := by
  rw [py_int, if_pos (by positivity), Int.floor_natCast, Int.toNat_natCast]

/-- C1 (corrected, counterexample): with a fractional credit of `0.5`
and a single absent date, `apply_pending_offs` keeps the date in
`Final_Absent_Dates_After_Pending` (the truncated credit removes no
date) but sets `Total_Absent_After_Pending` to `0.5`, so the numeric
field differs from the length of the paired list. -/
theorem c1_counterexample :
    (apply_pending_offs_row 1 [19723] (1/2) []).total_after ≠
      ((apply_pending_offs_row 1 [19723] (1/2) []).remaining.length : ℚ) := by
  have hn : (py_int (1/2)).toNat = 0 := by norm_num [py_int]
  simp only [apply_pending_offs_row, hn]
  have hlen1 : (sorted_set [(19723 : ℤ)]).length = 1 := by decide
  norm_num [hlen1]

/-- C1 (amended): after the Compensatory-Off Credit Stage, the numeric
`Total_Absent_After_Pending` equals the length of
`Final_Absent_Dates_After_Pending` provided the credit is a whole
number and the baseline numeric count equals the number of distinct
baseline dates (both hold in the pipeline when the credit is whole);
with fractional credit the numeric field is `baseline - credit` clipped
at zero, which the counterexample separates from the list length. -/
theorem c1_reconciliation (b c : ℚ) (dates req : List ℤ) (n : ℕ)
    (hc : c = (n : ℚ)) (hb : b = ((sorted_set dates).length : ℚ)) :
    (apply_pending_offs_row b dates c req).total_after =
      ((apply_pending_offs_row b dates c req).remaining.length : ℚ) := by
  subst hc hb
  obtain ⟨hlen, _, htk⟩ := pending_len_facts ((n : ℚ)) dates req
  rw [apply_pending_offs_row_spec]
  dsimp only
  rw [List.length_take, pending_spare, py_int_natCast]
  have hTn : (pending_taken ((n : ℚ)) dates req).length ≤ n := by
    rw [htk, py_int_natCast]
    exact min_le_left _ _
  have harith :
      min ((pending_rem1 ((n : ℚ)) dates req).length -
          (n - (pending_taken ((n : ℚ)) dates req).length))
        (pending_rem1 ((n : ℚ)) dates req).length =
      (sorted_set dates).length - min n (sorted_set dates).length := by
    omega
  rw [harith]
  rcases le_total n (sorted_set dates).length with h | h
  · rw [min_eq_left h, max_eq_left (sub_nonneg.mpr (by exact_mod_cast h))]
    push_cast [Nat.cast_sub h]
    ring
  · rw [min_eq_right h, Nat.sub_self]
    rw [max_eq_right (sub_nonpos.mpr (by exact_mod_cast h))]
    norm_num

/-- C1 witness: the amended reconciliation at a concrete whole-credit
input. -/
theorem c1_witness :
    (apply_pending_offs_row ((sorted_set [19723, 19727]).length : ℚ)
        [19723, 19727] ((2 : ℕ) : ℚ) []).total_after =
      ((apply_pending_offs_row ((sorted_set [19723, 19727]).length : ℚ)
        [19723, 19727] ((2 : ℕ) : ℚ) []).remaining.length : ℚ) :=
  c1_reconciliation _ _ [19723, 19727] [] 2 rfl rfl

/-- C5: when the compensatory-off credit exceeds the number of
remaining absence dates, the credit stage does not fail: every
remaining date is consumed into `Pending_OFF_Dates`,
`Final_Absent_Dates_After_Pending` becomes empty, and the numeric
post-credit count is clipped at zero, never negative (the excess
credit is simply unused). -/
theorem c5_credit_overdraw (b c : ℚ) (dates req : List ℤ)
    (h : ((sorted_set dates).length : ℚ) < c) :
    (apply_pending_offs_row b dates c req).remaining = [] ∧
      (apply_pending_offs_row b dates c req).pending = sorted_set dates ∧
      0 ≤ (apply_pending_offs_row b dates c req).total_after := by
  obtain ⟨hlen, hmem, htk⟩ := pending_len_facts c dates req
  have hc0 : (0 : ℚ) ≤ c := le_trans (by positivity) h.le
  have hnL : (sorted_set dates).length ≤ (py_int c).toNat := by
    rw [py_int, if_pos hc0]
    rw [Int.le_toNat (Int.floor_nonneg.mpr hc0)]
    exact Int.le_floor.mpr (by exact_mod_cast h.le)
  have hTn : (pending_taken c dates req).length ≤ (py_int c).toNat := by
    rw [htk]; exact min_le_left _ _
  have hz : (pending_rem1 c dates req).length - pending_spare c dates req = 0 := by
    rw [pending_spare]; omega
  rw [apply_pending_offs_row_spec]
  dsimp only
  refine ⟨by rw [hz]; simp, ?_, le_max_right _ _⟩
  rw [hz, List.drop_zero]
  refine sorted_set_congr (fun a => ?_)
  rw [List.mem_append, ← mem_sorted_set (l := dates)]
  rw [or_comm]
  exact hmem a

/-- C5 witness: overdraw at a concrete input (one absent date, credit
2). -/
theorem c5_witness :
    ((sorted_set [(19723 : ℤ)]).length : ℚ) < 2 ∧
      ((apply_pending_offs_row 1 [19723] 2 []).remaining = [] ∧
        (apply_pending_offs_row 1 [19723] 2 []).pending = sorted_set [19723] ∧
        0 ≤ (apply_pending_offs_row 1 [19723] 2 []).total_after) :=
  have hlt : ((sorted_set [(19723 : ℤ)]).length : ℚ) < 2 := by
    have h1 : (sorted_set [(19723 : ℤ)]).length = 1 := by decide
    rw [h1]; norm_num
  ⟨hlt, c5_credit_overdraw 1 2 [19723] [] hlt⟩

/-- C3: with a whole-number credit, the credit stage consumes credit
first against the requested dates that appear in the remaining absence
list (`pending_taken`; requested dates not in the list consume no
credit and are not flagged, so filtering them away changes nothing),
then consumes the latest remaining absence dates (the dropped suffix of
the ascending `pending_rem1`); in particular the spec scenario
`finalAbsentDates = [2024-01-01, 2024-01-05, 2024-01-10]`, credit 2,
requested `[2024-01-05]` (epoch days 19723/19727/19732) yields
`pendingOffDates = [2024-01-05, 2024-01-10]` and
`finalAbsentDatesAfterPending = [2024-01-01]`. -/
theorem c3_requested_first (b c : ℚ) (dates req : List ℤ) (n : ℕ) (_hc : c = (n : ℚ)) :
    ((apply_pending_offs_row b dates c req).pending =
        sorted_set (pending_taken c dates req ++
          (pending_rem1 c dates req).drop
            ((pending_rem1 c dates req).length - pending_spare c dates req)) ∧
      (apply_pending_offs_row b dates c req).remaining =
        (pending_rem1 c dates req).take
          ((pending_rem1 c dates req).length - pending_spare c dates req)) ∧
    apply_pending_offs_row b dates c req =
      apply_pending_offs_row b dates c
        (req.filter (fun r => decide (r ∈ sorted_set dates))) ∧
    apply_pending_offs_row 3 [19723, 19727, 19732] 2 [19727] =
      { dt_list := [19723, 19727, 19732], pending := [19727, 19732],
        remaining := [19723], total_after := 1 } := by
  refine ⟨by rw [apply_pending_offs_row_spec]; exact ⟨rfl, rfl⟩, ?_, ?_⟩
  · have hfilt : sorted_set (req.filter (fun r => decide (r ∈ sorted_set dates))) =
        (sorted_set req).filter (fun r => decide (r ∈ sorted_set dates)) :=
      sorted_set_filter req _
    rw [apply_pending_offs_row_spec, apply_pending_offs_row_spec]
    have htaken : pending_taken c dates (req.filter (fun r => decide (r ∈ sorted_set dates))) =
        pending_taken c dates req := by
      rw [pending_taken, pending_taken, hfilt, List.filter_filter]
      simp
    rw [pending_rem1, pending_rem1, pending_spare, pending_spare, htaken]
  · have hn : (py_int 2).toNat = 2 := by norm_num [py_int]; rfl
    simp only [apply_pending_offs_row, hn]
    rw [PendingRow.mk.injEq]
    refine ⟨by decide, by decide, by decide, by norm_num⟩

/-- C3 witness: the theorem applied at the spec scenario input (whole
credit 2). -/
theorem c3_witness :
    apply_pending_offs_row 3 [19723, 19727, 19732] 2 [19727] =
      { dt_list := [19723, 19727, 19732], pending := [19727, 19732],
        remaining := [19723], total_after := 1 } :=
  (c3_requested_first 3 ((2 : ℕ) : ℚ) [19723, 19727, 19732] [19727] 2 rfl).2.2

/-! ### Leave Adjustment Stage (`vacation_adjustment.py`)

Per-employee core of `apply_vacation_adjustments` and the window
helper `get_employee_effective_windows`.  An `OverrideRow` is one
normalized row of the HR overrides file for one employee: its canonical
`type` bucket, its parsed `start_date` / `end_date` (absent cells are
`none`, mirroring `NaT`), and its numeric `days` cell (0 when absent,
mirroring `fillna(0)`). -/

/-- Canonical leave-type buckets produced by `_canonicalize_type`. -/
inductive LeaveType where
  | vacation
  | sick
  | emergency
  | unpaid
  | back_from_vacation
  | stop_working
  | new_hire
  | other
deriving DecidableEq, Repr

/-- One normalized HR override row for one employee. -/
structure OverrideRow where
  typ : LeaveType
  start_date : Option ℤ
  end_date : Option ℤ
  days : ℚ
deriving DecidableEq, Repr

/-- The `new_hire_map` loop of `apply_vacation_adjustments` (lines
687-692; the identical loop in `get_employee_effective_windows`, lines
269-272): the earliest `new_hire` start date with a present
`start_date`, if any. -/
def new_hire_fold (rows : List OverrideRow) : Option ℤ :=
  rows.foldl (fun acc r =>
    if r.typ = LeaveType.new_hire then
      match r.start_date with
      | some d =>
        match acc with
        | some cur => some (min cur d)
        | none => some d
      | none => acc
    else acc) none

/-- The `stop_work_map` loop of `apply_vacation_adjustments` (lines
694-699): the latest `stop_working` date with a present `end_date`. -/
def stop_work_fold (rows : List OverrideRow) : Option ℤ :=
  rows.foldl (fun acc r =>
    if r.typ = LeaveType.stop_working then
      match r.end_date with
      | some d =>
        match acc with
        | some cur => some (max cur d)
        | none => some d
      | none => acc
    else acc) none

/-- The `vac_return_map` loop of `get_employee_effective_windows`
(lines 275-279): the earliest `back_from_vacation` start date. -/
def vac_return_fold (rows : List OverrideRow) : Option ℤ :=
  rows.foldl (fun acc r =>
    if r.typ = LeaveType.back_from_vacation then
      match r.start_date with
      | some d =>
        match acc with
        | some cur => some (min cur d)
        | none => some d
      | none => acc
    else acc) none

/-- The `stop_work_map` loop of `get_employee_effective_windows` (lines
282-288): latest `stop_working` date, taking `end_date` when present
and falling back to `start_date`. -/
def stop_work_fold_gew (rows : List OverrideRow) : Option ℤ :=
  rows.foldl (fun acc r =>
    if r.typ = LeaveType.stop_working then
      match r.end_date.or r.start_date with
      | some d =>
        match acc with
        | some cur => some (max cur d)
        | none => some d
      | none => acc
    else acc) none

/-- Effective employment window used by the Leave Adjustment Stage
(`apply_vacation_adjustments`, lines 757-764): global window narrowed
by the earliest `new_hire` start (clipped up to the global start) and
the latest `stop_working` end (clipped down to the global end);
`back_from_vacation` rows play no part here. -/
def apply_vacation_adjustments_window (gs ge : ℤ) (rows : List OverrideRow) : ℤ × ℤ :=
  (match new_hire_fold rows with
    | some d => max gs d
    | none => gs,
   match stop_work_fold rows with
    | some d => min ge d
    | none => ge)

/-- Effective window computed by `get_employee_effective_windows`
(lines 302-354): start is the later of the earliest `new_hire` and the
earliest `back_from_vacation` markers (global start when neither
exists), end is the latest `stop_working` marker (global end when
none); both clipped into the global window. -/
def get_employee_effective_windows_row (gs ge : ℤ) (rows : List OverrideRow) : ℤ × ℤ :=
  let eff_start :=
    match new_hire_fold rows, vac_return_fold rows with
    | some a, some b => max a b
    | some a, none => a
    | none, some b => b
    | none, none => gs
  let eff_end :=
    match stop_work_fold_gew rows with
    | some d => d
    | none => ge
  (max eff_start gs, min eff_end ge)

/-- Window as claimed by the spec sentence: start clipped to the
LATEST of all `new_hire` / `back_from_vacation` start markers, end
clipped to the EARLIEST `stop_working` end marker.  Stated only to be
compared against the code's windows. -/
def claimed_effective_window (gs ge : ℤ) (rows : List OverrideRow) : ℤ × ℤ :=
  let starts := rows.filterMap (fun r =>
    if r.typ = LeaveType.new_hire ∨ r.typ = LeaveType.back_from_vacation then
      r.start_date
    else none)
  let stops := rows.filterMap (fun r =>
    if r.typ = LeaveType.stop_working then r.end_date else none)
  (match starts.max? with
    | some d => max gs d
    | none => gs,
   match stops.min? with
    | some d => min ge d
    | none => ge)

/-- Generic accumulator lemma for the marker-map loops: folding rows
with a present accumulator combines the selected dates with `f`. -/
theorem marker_fold_acc (f : ℤ → ℤ → ℤ) (sel : OverrideRow → Option ℤ) :
    ∀ (rows : List OverrideRow) (a : ℤ),
      rows.foldl (fun acc r =>
        match sel r with
        | some d =>
          match acc with
          | some cur => some (f cur d)
          | none => some d
        | none => acc) (some a) =
      some ((rows.filterMap sel).foldl f a)
  | [], _ => by simp
  | r :: rs, a => by
    cases hsel : sel r with
    | none => simp [List.filterMap_cons, hsel, marker_fold_acc f sel rs a]
    | some d => simp [List.filterMap_cons, hsel, marker_fold_acc f sel rs (f a d)]

/-- Generic characterization of the marker-map loops started empty. -/
theorem marker_fold_eq (f : ℤ → ℤ → ℤ) (sel : OverrideRow → Option ℤ) :
    ∀ (rows : List OverrideRow),
      rows.foldl (fun acc r =>
        match sel r with
        | some d =>
          match acc with
          | some cur => some (f cur d)
          | none => some d
        | none => acc) none =
      (match rows.filterMap sel with
        | [] => none
        | d :: ds => some (ds.foldl f d))
  | [] => by simp
  | r :: rs => by
    cases hsel : sel r with
    | none => simp [List.filterMap_cons, hsel, marker_fold_eq f sel rs]
    | some d => simp [List.filterMap_cons, hsel, marker_fold_acc f sel rs d]

/-- Start dates of `new_hire` rows, in row order. -/
def new_hire_dates (rows : List OverrideRow) : List ℤ :=
  rows.filterMap (fun r => if r.typ = LeaveType.new_hire then r.start_date else none)

/-- End dates of `stop_working` rows, in row order. -/
def stop_work_dates (rows : List OverrideRow) : List ℤ :=
  rows.filterMap (fun r => if r.typ = LeaveType.stop_working then r.end_date else none)

theorem new_hire_fold_eq (rows : List OverrideRow) :
    new_hire_fold rows =
      (match new_hire_dates rows with
        | [] => none
        | d :: ds => some (ds.foldl min d)) := by
  unfold new_hire_dates new_hire_fold
  rw [← marker_fold_eq min
    (fun r => if r.typ = LeaveType.new_hire then r.start_date else none) rows]
  congr 1
  funext acc r
  by_cases ht : r.typ = LeaveType.new_hire
  · simp only [if_pos ht]
  · simp only [if_neg ht]

theorem stop_work_fold_eq (rows : List OverrideRow) :
    stop_work_fold rows =
      (match stop_work_dates rows with
        | [] => none
        | d :: ds => some (ds.foldl max d)) := by
  unfold stop_work_dates stop_work_fold
  rw [← marker_fold_eq max
    (fun r => if r.typ = LeaveType.stop_working then r.end_date else none) rows]
  congr 1
  funext acc r
  by_cases ht : r.typ = LeaveType.stop_working
  · simp only [if_pos ht]
  · simp only [if_neg ht]

theorem foldl_min_le : ∀ (ds : List ℤ) (d x : ℤ), x ∈ d :: ds → ds.foldl min d ≤ x
  | [], d, x, hx => by
    simp only [List.foldl_nil]
    simp only [List.mem_singleton] at hx
    omega
  | e :: es, d, x, hx => by
    simp only [List.foldl_cons]
    have hseed : es.foldl min (min d e) ≤ min d e :=
      foldl_min_le es (min d e) (min d e) (List.mem_cons_self _ _)
    rcases List.mem_cons.mp hx with rfl | hx1
    · exact le_trans hseed (min_le_left _ _)
    · rcases List.mem_cons.mp hx1 with rfl | hx2
      · exact le_trans hseed (min_le_right _ _)
      · exact foldl_min_le es (min d e) x (List.mem_cons_of_mem _ hx2)

theorem foldl_max_ge : ∀ (ds : List ℤ) (d x : ℤ), x ∈ d :: ds → x ≤ ds.foldl max d
  | [], d, x, hx => by
    simp only [List.foldl_nil]
    simp only [List.mem_singleton] at hx
    omega
  | e :: es, d, x, hx => by
    simp only [List.foldl_cons]
    have hseed : max d e ≤ es.foldl max (max d e) :=
      foldl_max_ge es (max d e) (max d e) (List.mem_cons_self _ _)
    rcases List.mem_cons.mp hx with rfl | hx1
    · exact le_trans (le_max_left _ _) hseed
    · rcases List.mem_cons.mp hx1 with rfl | hx2
      · exact le_trans (le_max_right _ _) hseed
      · exact foldl_max_ge es (max d e) x (List.mem_cons_of_mem _ hx2)

/-- Excused leave categories (`excused_types` in
`apply_vacation_adjustments`). -/
def excused_types : List LeaveType :=
  [LeaveType.vacation, LeaveType.sick, LeaveType.emergency, LeaveType.unpaid]

/-- Core of `_clip_range` once both endpoints are filled in: order them,
clip into the window, `none` when the clipped range is empty. -/
def clip_range_go (s0 e0 ws we : ℤ) : Option (ℤ × ℤ) :=
  let s1 := if e0 < s0 then e0 else s0
  let e1 := if e0 < s0 then s0 else e0
  let s2 := max s1 ws
  let e2 := min e1 we
  if e2 < s2 then none else some (s2, e2)

/-- Helper `_clip_range` of `apply_vacation_adjustments` (lines 728-744):
missing endpoints borrow the other one; a range entirely outside the
window clips to nothing. -/
def clip_range (sd ed : Option ℤ) (ws we : ℤ) : Option (ℤ × ℤ) :=
  match sd, ed with
  | none, none => none
  | some s0, none => clip_range_go s0 s0 ws we
  | none, some e0 => clip_range_go e0 e0 ws we
  | some s0, some e0 => clip_range_go s0 e0 ws we

/-- Per-employee core of `apply_vacation_adjustments` (lines 753-867):
effective window from the marker maps; an inverted window auto-excuses
everything; otherwise absences outside the window are auto-excused,
then range-based overrides excuse covered inside-window absences, or a
numeric `days` total excuses the earliest inside-window absences.
Returns `Final_Absent_Dates` and `Excused_Total`. -/
def apply_vacation_adjustments_row (gs ge : ℤ) (rows : List OverrideRow)
    (has_ranges has_days : Bool) (baseline : List ℤ) : List ℤ × ℕ :=
  let w := apply_vacation_adjustments_window gs ge rows
  let effs := w.1
  let effe := w.2
  if effe < effs then ([], baseline.toFinset.card)
  else
    let inside := baseline.filter (fun d => decide (effs ≤ d) && decide (d ≤ effe))
    let outside := baseline.filter (fun d => decide (d < effs) || decide (effe < d))
    let ex0 : Finset ℤ := outside.toFinset
    let ex1 :=
      if rows ≠ [] then
        if has_ranges then
          rows.foldl (fun acc r =>
            if r.typ ∈ excused_types then
              match clip_range r.start_date r.end_date effs effe with
              | some (s, e) =>
                acc ∪ (inside.filter (fun d => decide (s ≤ d) && decide (d ≤ e))).toFinset
              | none => acc
            else acc) ex0
        else if has_days then
          let total := py_int (rows.foldl
            (fun acc r => if r.typ ∈ excused_types then acc + r.days else acc) 0)
          if 0 < total ∧ inside ≠ [] then ex0 ∪ (inside.take total.toNat).toFinset
          else ex0
        else ex0
      else ex0
    (baseline.filter (fun d => decide (d ∉ ex1)), ex1.card)

/-- The Leave Adjustment Stage only removes dates from the baseline. -/
theorem apply_vacation_adjustments_row_subset (gs ge : ℤ) (rows : List OverrideRow)
    (has_ranges has_days : Bool) (baseline : List ℤ) :
    ∀ d ∈ (apply_vacation_adjustments_row gs ge rows has_ranges has_days baseline).1,
      d ∈ baseline := by
  intro d hd
  rw [apply_vacation_adjustments_row] at hd
  by_cases h : (apply_vacation_adjustments_window gs ge rows).2 <
      (apply_vacation_adjustments_window gs ge rows).1
  · rw [if_pos h] at hd
    simp at hd
  · rw [if_neg h] at hd
    exact List.mem_of_mem_filter hd

/-- Rows that a `filter` keeps whenever the selector selects them
contribute the same selected dates. -/
theorem filterMap_filter_of_imp (p : OverrideRow → Bool) (sel : OverrideRow → Option ℤ)
    (h : ∀ r, sel r ≠ none → p r = true) :
    ∀ rows : List OverrideRow, (rows.filter p).filterMap sel = rows.filterMap sel
  | [] => rfl
  | r :: rs => by
    by_cases hp : p r = true
    · rw [List.filter_cons_of_pos hp, List.filterMap_cons, List.filterMap_cons,
        filterMap_filter_of_imp p sel h rs]
    · have hsel : sel r = none := by
        by_contra hne
        exact hp (h r hne)
      rw [List.filter_cons_of_neg (by simpa using hp), List.filterMap_cons, hsel,
        filterMap_filter_of_imp p sel h rs]

/-- C4 (corrected, counterexample): employee markers `stop_working` on
day 10, `stop_working` on day 20 and `return from leave` on day 5,
global window `[0, 100]`.  The claim predicts window end
`min 100 10 = 10` (earliest stop marker); both the Leave Adjustment
Stage's window and `get_employee_effective_windows` produce `20` (the
latest stop marker), and the stage's window start stays at the global
start `0`, ignoring the return-from-leave marker the claim says should
move it to `5`. -/
theorem c4_counterexample :
    (apply_vacation_adjustments_window 0 100
        [⟨LeaveType.stop_working, none, some 10, 0⟩,
         ⟨LeaveType.stop_working, none, some 20, 0⟩,
         ⟨LeaveType.back_from_vacation, some 5, none, 0⟩]) = (0, 20) ∧
      (get_employee_effective_windows_row 0 100
        [⟨LeaveType.stop_working, none, some 10, 0⟩,
         ⟨LeaveType.stop_working, none, some 20, 0⟩,
         ⟨LeaveType.back_from_vacation, some 5, none, 0⟩]) = (5, 20) ∧
      (claimed_effective_window 0 100
        [⟨LeaveType.stop_working, none, some 10, 0⟩,
         ⟨LeaveType.stop_working, none, some 20, 0⟩,
         ⟨LeaveType.back_from_vacation, some 5, none, 0⟩]) = (5, 10) ∧
      ((20 : ℤ) ≠ 10 ∧ (0 : ℤ) ≠ 5) := by
  refine ⟨?_, ?_, ?_, by decide⟩ <;> decide

/-- C4 (amended): the effective window of the Leave Adjustment Stage is
the global window with its start raised to the EARLIEST `new_hire`
start marker and its end lowered to the LATEST `stop_working` end
marker; `return from leave` markers are ignored by this stage
(`get_employee_effective_windows`, which the claim also cites, does use
them, but takes the latest stop marker as well). -/
theorem c4_effective_window (gs ge : ℤ) (rows : List OverrideRow) :
    apply_vacation_adjustments_window gs ge rows =
      ((match new_hire_dates rows with
        | [] => gs
        | d :: ds => max gs (ds.foldl min d)),
       (match stop_work_dates rows with
        | [] => ge
        | d :: ds => min ge (ds.foldl max d))) ∧
      (∀ x ∈ new_hire_dates rows,
        (apply_vacation_adjustments_window gs ge rows).1 ≤ max gs x) ∧
      (∀ x ∈ stop_work_dates rows,
        min ge x ≤ (apply_vacation_adjustments_window gs ge rows).2) ∧
      apply_vacation_adjustments_window gs ge
          (rows.filter (fun r => decide (r.typ ≠ LeaveType.back_from_vacation))) =
        apply_vacation_adjustments_window gs ge rows := by
  have heq : apply_vacation_adjustments_window gs ge rows =
      ((match new_hire_dates rows with
        | [] => gs
        | d :: ds => max gs (ds.foldl min d)),
       (match stop_work_dates rows with
        | [] => ge
        | d :: ds => min ge (ds.foldl max d))) := by
    rw [apply_vacation_adjustments_window, new_hire_fold_eq, stop_work_fold_eq]
    rcases new_hire_dates rows with _ | ⟨d, ds⟩ <;>
      rcases stop_work_dates rows with _ | ⟨e, es⟩ <;> rfl
  refine ⟨heq, ?_, ?_, ?_⟩
  · intro x hx
    rw [heq]
    rcases hnh : new_hire_dates rows with _ | ⟨d, ds⟩
    · rw [hnh] at hx
      exact absurd hx (List.not_mem_nil x)
    · rw [hnh] at hx
      exact max_le_max (le_refl gs) (foldl_min_le ds d x hx)
  · intro x hx
    rw [heq]
    rcases hsw : stop_work_dates rows with _ | ⟨d, ds⟩
    · rw [hsw] at hx
      exact absurd hx (List.not_mem_nil x)
    · rw [hsw] at hx
      exact min_le_min (le_refl ge) (foldl_max_ge ds d x hx)
  · have hnh : new_hire_dates
        (rows.filter (fun r => decide (r.typ ≠ LeaveType.back_from_vacation))) =
        new_hire_dates rows := by
      refine filterMap_filter_of_imp _ _ (fun r hne => ?_) rows
      by_cases ht : r.typ = LeaveType.new_hire
      · simp [ht]
      · simp [new_hire_dates, ht] at hne
    have hsw : stop_work_dates
        (rows.filter (fun r => decide (r.typ ≠ LeaveType.back_from_vacation))) =
        stop_work_dates rows := by
      refine filterMap_filter_of_imp _ _ (fun r hne => ?_) rows
      by_cases ht : r.typ = LeaveType.stop_working
      · simp [ht]
      · simp [stop_work_dates, ht] at hne
    rw [apply_vacation_adjustments_window, apply_vacation_adjustments_window,
      new_hire_fold_eq, new_hire_fold_eq, stop_work_fold_eq, stop_work_fold_eq,
      hnh, hsw]

/-- C4 witness: the amended window bound applied at the counterexample
input (the later stop marker 20 bounds the window end from below via
the marker 10). -/
theorem c4_witness :
    (10 : ℤ) ∈ stop_work_dates
        [⟨LeaveType.stop_working, none, some 10, 0⟩,
         ⟨LeaveType.stop_working, none, some 20, 0⟩] ∧
      min 100 10 ≤ (apply_vacation_adjustments_window 0 100
        [⟨LeaveType.stop_working, none, some 10, 0⟩,
         ⟨LeaveType.stop_working, none, some 20, 0⟩]).2 :=
  ⟨by decide,
    (c4_effective_window 0 100
      [⟨LeaveType.stop_working, none, some 10, 0⟩,
       ⟨LeaveType.stop_working, none, some 20, 0⟩]).2.2.1 10 (by decide)⟩

/-! ### Absence Enumerator (`vacation_adjustment.py`, `_enumerate_absent_dates`) -/

/-- Per-day presence fact derived from one `DailyShiftRecord` row:
its calendar date, its `Total Shift Duration` in seconds, its stripped
lower-cased `Punch Status` label, and its `Original Number of
Punches`. -/
structure DayRec where
  date : ℤ
  dur : ℤ
  status_lower : String
  orig_punches : ℕ
deriving DecidableEq, Repr

/-- Python `date.weekday()` (Monday = 0) on an epoch-day number
(1970-01-01 was a Thursday). -/
def weekday (d : ℤ) : ℤ :=
  (d + 3).emod 7

/-- Single-punch detection of `_enumerate_absent_dates` (lines
141-149): the status label says so, or the row has exactly one original
punch and zero duration. -/
def is_single (r : DayRec) : Bool :=
  (r.status_lower = "single punch (0 shift duration)" : Bool) ||
    ((r.orig_punches = 1 : Bool) && (r.dur = 0 : Bool))

/-- Presence rule (line 154): positive shift duration or a single-punch
day. -/
def is_present_row (r : DayRec) : Bool :=
  (0 < r.dur : Bool) || is_single r

/-- Dates of the present rows (lines 156-162). -/
def present_dates (rows : List DayRec) : List ℤ :=
  (rows.filter is_present_row).map (fun r => r.date)

/-- Python `pd.date_range(start, end)` as epoch-day numbers. -/
def day_range (s e : ℤ) : List ℤ :=
  (List.range (e + 1 - s).toNat).map (fun (i : ℕ) => s + (i : ℤ))

/-- The day loop of `_enumerate_absent_dates` (lines 177-194): skip
weekend days, vacation days and present days, append the rest. -/
def build_absent (rows : List DayRec) (vac : List ℤ) (wk : List ℤ) : List ℤ → List ℤ
  | [] => []
  | d :: ds =>
    if weekday d ∈ wk then build_absent rows vac wk ds
    else if d ∈ vac then build_absent rows vac wk ds
    else if d ∈ present_dates rows then build_absent rows vac wk ds
    else d :: build_absent rows vac wk ds

/-- Function `_enumerate_absent_dates`: ordered list of absent dates in the
window (the final `sorted` of the source is the identity because the
day loop walks the window in ascending order). -/
def enumerate_absent_dates (rows : List DayRec) (s e : ℤ) (vac : List ℤ) (wk : List ℤ) :
    List ℤ :=
  build_absent rows vac wk (day_range s e)

theorem build_absent_eq_filter (rows : List DayRec) (vac wk : List ℤ) :
    ∀ days : List ℤ, build_absent rows vac wk days =
      days.filter (fun d => decide (weekday d ∉ wk) && decide (d ∉ vac) &&
        decide (d ∉ present_dates rows))
  | [] => rfl
  | d :: ds => by
    rw [build_absent]
    by_cases h1 : weekday d ∈ wk
    · rw [if_pos h1, List.filter_cons_of_neg (by simp [h1]),
        build_absent_eq_filter rows vac wk ds]
    · rw [if_neg h1]
      by_cases h2 : d ∈ vac
      · rw [if_pos h2, List.filter_cons_of_neg (by simp [h1, h2]),
          build_absent_eq_filter rows vac wk ds]
      · rw [if_neg h2]
        by_cases h3 : d ∈ present_dates rows
        · rw [if_pos h3, List.filter_cons_of_neg (by simp [h1, h2, h3]),
            build_absent_eq_filter rows vac wk ds]
        · rw [if_neg h3, List.filter_cons_of_pos (by simp [h1, h2, h3]),
            build_absent_eq_filter rows vac wk ds]

theorem mem_day_range {s e d : ℤ} : d ∈ day_range s e ↔ s ≤ d ∧ d ≤ e := by
  rw [day_range]
  simp only [List.mem_map, List.mem_range]
  constructor
  · rintro ⟨i, hi, rfl⟩
    omega
  · intro h
    exact ⟨(d - s).toNat, by omega, by omega⟩

theorem day_range_sorted (s e : ℤ) : (day_range s e).Sorted (· < ·) := by
  rw [day_range]
  have hp := List.pairwise_lt_range (e + 1 - s).toNat
  refine List.pairwise_map.mpr (hp.imp ?_)
  intro a b h
  omega

/-- C6: the Absence Enumerator returns exactly the dates of the range
that are neither rest days (weekday in the configured set), nor
vacation days, nor present days — where a day is present iff some row
of that date has positive shift duration or is a single-punch day —
and the output is in ascending calendar order. -/
theorem c6_absence_enumerator (rows : List DayRec) (s e : ℤ) (vac wk : List ℤ) :
    (∀ d, d ∈ enumerate_absent_dates rows s e vac wk ↔
      (s ≤ d ∧ d ≤ e) ∧ weekday d ∉ wk ∧ d ∉ vac ∧
        ¬∃ r ∈ rows, r.date = d ∧ ((0 : ℤ) < r.dur ∨ is_single r = true)) ∧
      (enumerate_absent_dates rows s e vac wk).Sorted (· < ·) := by
  constructor
  · intro d
    rw [enumerate_absent_dates, build_absent_eq_filter, List.mem_filter]
    have hpres : d ∈ present_dates rows ↔
        ∃ r ∈ rows, r.date = d ∧ ((0 : ℤ) < r.dur ∨ is_single r = true) := by
      simp only [present_dates, List.mem_map, List.mem_filter, is_present_row,
        Bool.or_eq_true, decide_eq_true_eq]
      constructor
      · rintro ⟨r, ⟨hr, hp⟩, rfl⟩
        exact ⟨r, hr, rfl, hp⟩
      · rintro ⟨r, hr, rfl, hp⟩
        exact ⟨r, ⟨hr, hp⟩, rfl⟩
    rw [mem_day_range]
    simp only [Bool.and_eq_true, decide_eq_true_eq]
    rw [hpres]
    tauto
  · rw [enumerate_absent_dates, build_absent_eq_filter]
    exact (day_range_sorted s e).filter _

/-- C6 witness: the characterization applied at a concrete input (one
present row on day 1, window days 0..2, no vacations, no rest days). -/
theorem c6_witness :
    (0 : ℤ) ∈ enumerate_absent_dates [⟨1, 3600, "", 2⟩] 0 2 [] [] ↔
      ((0 : ℤ) ≤ 0 ∧ (0 : ℤ) ≤ 2) ∧ weekday 0 ∉ ([] : List ℤ) ∧
        (0 : ℤ) ∉ ([] : List ℤ) ∧
        ¬∃ r ∈ [(⟨1, 3600, "", 2⟩ : DayRec)], r.date = 0 ∧
          ((0 : ℤ) < r.dur ∨ is_single r = true) :=
  (c6_absence_enumerator [⟨1, 3600, "", 2⟩] 0 2 [] []).1 0

/-- Baseline absence list handed to the Leave Adjustment Stage:
`generate_summary_report` fills `Absent_Dates` from
`_enumerate_absent_dates` and `apply_vacation_adjustments` consumes it
as its baseline. -/
def pipeline_final_absent (presRows : List DayRec) (gs ge : ℤ) (vac wk : List ℤ)
    (ovr : List OverrideRow) (has_ranges has_days : Bool) : List ℤ :=
  (apply_vacation_adjustments_row gs ge ovr has_ranges has_days
    (enumerate_absent_dates presRows gs ge vac wk)).1

/-- The full two-stage adjustment pipeline for one employee, ending at
the credit stage; the numeric baseline handed to `apply_pending_offs`
is `Final_Absent_Days = len(Final_Absent_Dates)`. -/
def pipeline_after_pending (presRows : List DayRec) (gs ge : ℤ) (vac wk : List ℤ)
    (ovr : List OverrideRow) (has_ranges has_days : Bool) (c : ℚ) (req : List ℤ) :
    PendingRow :=
  apply_pending_offs_row
    ((pipeline_final_absent presRows gs ge vac wk ovr has_ranges has_days).length : ℚ)
    (pipeline_final_absent presRows gs ge vac wk ovr has_ranges has_days) c req

/-- C2: the date lists of the pipeline are nested — the credit stage's
survivors are among the leave stage's survivors, which are among the
baseline absences, which lie inside the reporting window; both
adjustment stages only remove dates. -/
theorem c2_subset_chain (presRows : List DayRec) (gs ge : ℤ) (vac wk : List ℤ)
    (ovr : List OverrideRow) (has_ranges has_days : Bool) (c : ℚ) (req : List ℤ) :
    (∀ d ∈ (pipeline_after_pending presRows gs ge vac wk ovr has_ranges has_days c req).remaining,
      d ∈ pipeline_final_absent presRows gs ge vac wk ovr has_ranges has_days) ∧
      (∀ d ∈ pipeline_final_absent presRows gs ge vac wk ovr has_ranges has_days,
        d ∈ enumerate_absent_dates presRows gs ge vac wk) ∧
      (∀ d ∈ enumerate_absent_dates presRows gs ge vac wk, gs ≤ d ∧ d ≤ ge) := by
  refine ⟨?_, ?_, ?_⟩
  · intro d hd
    rw [pipeline_after_pending, apply_pending_offs_row_spec] at hd
    dsimp only at hd
    have h1 : d ∈ pending_rem1 _ (pipeline_final_absent presRows gs ge vac wk ovr
        has_ranges has_days) req := List.take_subset _ _ hd
    have h2 := foldl_erase_subset _ _ h1
    exact mem_sorted_set.mp h2
  · intro d hd
    exact apply_vacation_adjustments_row_subset gs ge ovr has_ranges has_days _ d hd
  · intro d hd
    rw [enumerate_absent_dates, build_absent_eq_filter] at hd
    exact mem_day_range.mp (List.mem_of_mem_filter hd)

/-- C2 witness: the chain applied at a concrete input (empty presence,
one-day window). -/
theorem c2_witness :
    (0 : ℤ) ∈ enumerate_absent_dates [] 0 0 [] [] ∧ ((0 : ℤ) ≤ 0 ∧ (0 : ℤ) ≤ 0) :=
  ⟨by decide, (c2_subset_chain [] 0 0 [] [] [] false false 0 []).2.2 0 (by decide)⟩

/-! ### Punch Normalizer (`data_processing.py`,
`_calculate_non_second_cup_shift_details` lines 244-264) -/

/-- One punch of an employee-day group: `Original_DateTime` in seconds
and the abstracted `Status` label. -/
structure Punch where
  time : ℤ
  status : Status
deriving DecidableEq, Repr

/-- Guard under which a punch is kept relative to the last kept punch:
more than 10 minutes away, or (when a status column is present) a
different label. -/
def keep_guard (sp : Bool) (last p : Punch) : Prop :=
  600 < p.time - last.time ∨ (sp = true ∧ p.status ≠ last.status)

instance (sp : Bool) (last p : Punch) : Decidable (keep_guard sp last p) := by
  rw [keep_guard]; infer_instance

/-- Interior consolidation loop (lines 248-254): walk the interior
punches, keeping one only when `keep_guard` holds against the last
KEPT punch. -/
def keep_interior (sp : Bool) : Punch → List Punch → List Punch
  | _, [] => []
  | last, p :: ps =>
    if keep_guard sp last p then p :: keep_interior sp p ps
    else keep_interior sp last ps

/-- Punch consolidation (lines 244-264): always keep the first punch;
filter the interior through `keep_interior`; append the original last
punch when it differs (in time, or in label when labels are available)
from the last kept punch; if that still leaves a single punch while the
group had more than one, append the last punch regardless. -/
def consolidate_punches (sp : Bool) : List Punch → List Punch
  | [] => []
  | [p0] => [p0]
  | p0 :: p1 :: rest =>
    let interior := (p1 :: rest).dropLast
    let core := p0 :: keep_interior sp p0 interior
    let lastP := (p1 :: rest).getLastD p0
    let kl := core.getLastD p0
    let withLast :=
      if lastP.time ≠ kl.time ∨ (sp = true ∧ lastP.status ≠ kl.status) then
        core ++ [lastP]
      else core
    if withLast.length = 1 then withLast ++ [lastP] else withLast

theorem keep_interior_subset (sp : Bool) :
    ∀ (last : Punch) (ps : List Punch), keep_interior sp last ps ⊆ ps
  | _, [] => by simp [keep_interior]
  | last, p :: ps => by
    rw [keep_interior]
    by_cases h : keep_guard sp last p
    · rw [if_pos h]
      intro b hb
      rcases List.mem_cons.mp hb with rfl | hb'
      · exact List.mem_cons_self _ _
      · exact List.mem_cons_of_mem _ (keep_interior_subset sp p ps hb')
    · rw [if_neg h]
      intro b hb
      exact List.mem_cons_of_mem _ (keep_interior_subset sp last ps hb)

theorem keep_interior_chain (sp : Bool) :
    ∀ (last : Punch) (ps : List Punch),
      List.Chain (keep_guard sp) last (keep_interior sp last ps)
  | _, [] => List.Chain.nil
  | last, p :: ps => by
    rw [keep_interior]
    by_cases h : keep_guard sp last p
    · rw [if_pos h]
      exact List.Chain.cons h (keep_interior_chain sp p ps)
    · rw [if_neg h]
      exact keep_interior_chain sp last ps

theorem punch_eq (a b : Punch) (ht : a.time = b.time) (hs : a.status = b.status) :
    a = b := by
  cases a
  cases b
  simp_all

theorem getLastD_mem : ∀ (l : List Punch) (a : Punch), l = [] ∨ l.getLastD a ∈ l
  | [], _ => Or.inl rfl
  | x :: xs, a => Or.inr (by
      rw [List.getLastD_cons]
      rcases getLastD_mem xs x with rfl | h
      · simp [List.getLastD]
      · exact List.mem_cons_of_mem _ h)

/-- First punch, original last punch and a minimum of two kept punches
for a group of at least two punches (under uniform labels when no
status column is available, which is how the processor builds the
groups). -/
theorem consolidate_cons_cons (sp : Bool) (p0 p1 : Punch) (rest : List Punch)
    (hsp : sp = true ∨
      ∀ p ∈ p0 :: p1 :: rest, ∀ q ∈ p0 :: p1 :: rest, p.status = q.status) :
    p0 ∈ consolidate_punches sp (p0 :: p1 :: rest) ∧
      (p1 :: rest).getLastD p0 ∈ consolidate_punches sp (p0 :: p1 :: rest) ∧
      2 ≤ (consolidate_punches sp (p0 :: p1 :: rest)).length := by
  simp only [consolidate_punches]
  set KI := keep_interior sp p0 ((p1 :: rest).dropLast) with hKI
  set lastP := (p1 :: rest).getLastD p0 with hlastP
  set kl := (p0 :: KI).getLastD p0 with hkl
  by_cases hA : lastP.time ≠ kl.time ∨ (sp = true ∧ lastP.status ≠ kl.status)
  · rw [if_pos hA]
    have hlen : ¬((p0 :: KI) ++ [lastP]).length = 1 := by
      simp
    rw [if_neg hlen]
    refine ⟨List.mem_append_left _ (List.mem_cons_self _ _),
      List.mem_append_right _ (List.mem_singleton.mpr rfl), ?_⟩
    simp only [List.length_append, List.length_cons, List.length_singleton]
    omega
  · rw [if_neg hA]
    push_neg at hA
    obtain ⟨hT, hS⟩ := hA
    have hklmem : kl ∈ p0 :: KI := by
      rw [hkl, List.getLastD_cons]
      rcases getLastD_mem KI p0 with h | h
      · rw [h]
        simp [List.getLastD]
      · exact List.mem_cons_of_mem _ h
    by_cases hB : (p0 :: KI).length = 1
    · rw [if_pos hB]
      refine ⟨List.mem_append_left _ (List.mem_cons_self _ _),
        List.mem_append_right _ (List.mem_singleton.mpr rfl), ?_⟩
      simp only [List.length_append, List.length_cons, List.length_singleton]
      omega
    · rw [if_neg hB]
      have hlastmem : lastP ∈ p0 :: p1 :: rest := by
        rw [hlastP]
        rcases getLastD_mem (p1 :: rest) p0 with h | h
        · exact absurd h (List.cons_ne_nil p1 rest)
        · exact List.mem_cons_of_mem _ h
      have hklps : kl ∈ p0 :: p1 :: rest := by
        rcases List.mem_cons.mp hklmem with h | h
        · rw [h]
          exact List.mem_cons_self _ _
        · have h1 := keep_interior_subset sp p0 ((p1 :: rest).dropLast) h
          exact List.mem_cons_of_mem _ (List.dropLast_subset (p1 :: rest) h1)
      have hEq : lastP = kl := by
        refine punch_eq _ _ hT ?_
        rcases hsp with hsp1 | huni
        · exact hS hsp1
        · exact huni _ hlastmem _ hklps
      refine ⟨List.mem_cons_self _ _, hEq ▸ hklmem, ?_⟩
      simp only [List.length_cons] at hB ⊢
      omega

/-- C7: punch normalization keeps a singleton group unchanged; for
groups of at least two punches it keeps the original first and last
punch and hence at least two punches (when no status column exists the
processor fills every label identically, which the uniform-status
hypothesis reflects); interior punches are kept only along the
`keep_guard` chain: each kept interior punch is more than the 10-minute
threshold after the previously kept punch, or differs in label when
labels are available. -/
theorem c7_punch_normalizer (sp : Bool) (ps : List Punch)
    (hsp : sp = true ∨ ∀ p ∈ ps, ∀ q ∈ ps, p.status = q.status) :
    (∀ p0, ps = [p0] → consolidate_punches sp ps = [p0]) ∧
      (∀ p0 p1 rest, ps = p0 :: p1 :: rest →
        p0 ∈ consolidate_punches sp ps ∧
          (p1 :: rest).getLastD p0 ∈ consolidate_punches sp ps ∧
          2 ≤ (consolidate_punches sp ps).length ∧
          List.Chain (keep_guard sp) p0
            (keep_interior sp p0 ((p1 :: rest).dropLast))) := by
  constructor
  · intro p0 h
    rw [h, consolidate_punches]
  · intro p0 p1 rest h
    subst h
    obtain ⟨h1, h2, h3⟩ := consolidate_cons_cons sp p0 p1 rest hsp
    exact ⟨h1, h2, h3, keep_interior_chain sp p0 _⟩

/-- C7 witness: normalization at a concrete three-punch group with
labels available. -/
theorem c7_witness :
    (⟨0, Status.cin⟩ : Punch) ∈
        consolidate_punches true [⟨0, Status.cin⟩, ⟨300, Status.cin⟩, ⟨900, Status.cout⟩] ∧
      (⟨900, Status.cout⟩ : Punch) ∈
        consolidate_punches true [⟨0, Status.cin⟩, ⟨300, Status.cin⟩, ⟨900, Status.cout⟩] ∧
      2 ≤ (consolidate_punches true
        [⟨0, Status.cin⟩, ⟨300, Status.cin⟩, ⟨900, Status.cout⟩]).length :=
  have h := ((c7_punch_normalizer true
    [⟨0, Status.cin⟩, ⟨300, Status.cin⟩, ⟨900, Status.cout⟩] (Or.inl rfl)).2
    ⟨0, Status.cin⟩ ⟨300, Status.cin⟩ [⟨900, Status.cout⟩] rfl)
  ⟨h.1, h.2.1, h.2.2.1⟩

/-! ### Day-Boundary Assigner (`data_processing.py`,
`process_uploaded_files` lines 183-202) -/

/-- Locations flagged `is_24_hour_location` in `COMPANY_CONFIGS`
(`config.py`): all belong to the "Second Cup" company. -/
def second_cup_24h_locations : List String :=
  ["Dar al Shifa", "Dar al Shifa Clinic", "Farwaniya Hospital", "Bustan",
   "Jahar Hospital", "Khaitan", "Capital Governorate"]

/-- Effective `is_24_hour_location` flag resolved for a company and
source location (`get_effective_rules_for_employee_day` over
`COMPANY_CONFIGS`; the default is `False` and only the Second Cup
locations above override it). -/
def is_24_hour_location (company source : String) : Bool :=
  (company = "Second Cup" : Bool) && second_cup_24h_locations.contains source

/-- Logical-date assignment of `process_uploaded_files` for one punch:
Second Cup always keeps the calendar date; every other company rolls a
punch back one day when its hour (from the minute-of-day `m`) is in
`[0, 1)`, its date is not the dataset's global minimum date, and its
status contains `C/Out`. -/
def assign_logical_date (company : String) (d : ℤ) (m : ℕ) (st : Status)
    (gmin : ℤ) : ℤ :=
  if company = "Second Cup" then d
  else if 0 ≤ m / 60 ∧ m / 60 < 1 ∧ d ≠ gmin ∧ st = Status.cout then d - 1 else d

/-- Day-Boundary rule as the claim words it: roll back an early-morning
exit punch unless the OWNING LOCATION follows an overnight/24-hour
policy or the date is the dataset's first day.  Stated only for
comparison with the code's `assign_logical_date`. -/
def spec_assign_logical_date (is24h : Bool) (d : ℤ) (m : ℕ) (st : Status)
    (gmin : ℤ) : ℤ :=
  if st = Status.cout ∧ m / 60 = 0 ∧ is24h = false ∧ d ≠ gmin then d - 1 else d

/-- C8 (corrected, counterexample): "2nd cup Warehouse" is a Second Cup
location WITHOUT the overnight/24-hour flag; for a `C/Out` punch at
00:30 on day 5 (global minimum day 0) the claim's rule rolls the punch
back to day 4, but the code keeps day 5 because it exempts the whole
Second Cup company rather than overnight locations. -/
theorem c8_counterexample :
    is_24_hour_location "Second Cup" "2nd cup Warehouse" = false ∧
      assign_logical_date "Second Cup" 5 30 Status.cout 0 = 5 ∧
      spec_assign_logical_date (is_24_hour_location "Second Cup" "2nd cup Warehouse")
        5 30 Status.cout 0 = 4 ∧
      (5 : ℤ) ≠ 4 := by
  refine ⟨by decide, by decide, by decide, by decide⟩

/-- C8 (amended): the early-morning rollback applies exactly when the
COMPANY is not "Second Cup", the punch's hour is 0 (00:00-00:59), its
status marks an exit, and its date is not the dataset's first day; in
particular every Second Cup punch keeps its own calendar date whatever
the location's 24-hour flag, and for every other company the code
agrees with the claim's location-based rule because none of their
locations carries the overnight flag. -/
theorem c8_day_boundary (company : String) (d : ℤ) (m : ℕ) (st : Status) (gmin : ℤ) :
    assign_logical_date company d m st gmin =
      (if company ≠ "Second Cup" ∧ m < 60 ∧ st = Status.cout ∧ d ≠ gmin
        then d - 1 else d) ∧
      (company = "Second Cup" → assign_logical_date company d m st gmin = d) ∧
      (company ≠ "Second Cup" → ∀ source : String,
        assign_logical_date company d m st gmin =
          spec_assign_logical_date (is_24_hour_location company source) d m st gmin) := by
  have hdiv : m / 60 < 1 ↔ m < 60 := Nat.div_lt_iff_lt_mul (by omega)
  have hdiv0 : m / 60 = 0 ↔ m < 60 := by omega
  refine ⟨?_, ?_, ?_⟩
  · rw [assign_logical_date]
    by_cases hsc : company = "Second Cup"
    · rw [if_pos hsc, if_neg (by simp [hsc])]
    · rw [if_neg hsc]
      by_cases hm : m < 60
      · by_cases hst : st = Status.cout
        · by_cases hd : d = gmin
          · rw [if_neg (by simp [hd]), if_neg (by simp [hd])]
          · rw [if_pos ⟨Nat.zero_le _, hdiv.mpr hm, hd, hst⟩,
              if_pos ⟨hsc, hm, hst, hd⟩]
        · rw [if_neg (by simp [hst]), if_neg (by simp [hst])]
      · rw [if_neg (by rw [hdiv]; simp [hm]), if_neg (by simp [hm])]
  · intro hsc
    rw [assign_logical_date, if_pos hsc]
  · intro hsc source
    have h24 : is_24_hour_location company source = false := by
      simp [is_24_hour_location, hsc]
    rw [assign_logical_date, if_neg hsc, spec_assign_logical_date, h24]
    by_cases hc : 0 ≤ m / 60 ∧ m / 60 < 1 ∧ d ≠ gmin ∧ st = Status.cout
    · rw [if_pos hc, if_pos ⟨hc.2.2.2, hdiv0.mpr (hdiv.mp hc.2.1), rfl, hc.2.2.1⟩]
    · rw [if_neg hc, if_neg ?_]
      intro hcon
      exact hc ⟨Nat.zero_le _, hdiv.mpr (hdiv0.mp hcon.2.1), hcon.2.2.2, hcon.1⟩

/-- C8 witness: the amended agreement conjunct applied at a concrete
non-Second-Cup punch. -/
theorem c8_witness :
    "D&H" ≠ "Second Cup" ∧
      assign_logical_date "D&H" 5 30 Status.cout 0 =
        spec_assign_logical_date (is_24_hour_location "D&H" "HO") 5 30 Status.cout 0 :=
  ⟨by decide, (c8_day_boundary "D&H" 5 30 Status.cout 0).2.2 (by decide) "HO"⟩

/-! ### Overnight Shift Matcher (`second_cup_logic.py`,
`calculate_24_hour_shifts` lines 133-253) -/

/-- Constant `MAX_SHIFT_DURATION = timedelta(hours=20)` in seconds. -/
def max_shift_seconds : ℤ := 72000

/-- Calendar date (epoch days) of an epoch-second timestamp. -/
def shift_date (t : ℤ) : ℤ := Int.fdiv t 86400

/-- One row produced by the matcher: the date the shift is attributed
to, its duration in seconds, and whether it is an open (unmatched)
shift. -/
structure ShiftRec where
  date : ℤ
  duration : ℤ
  is_open : Bool
deriving DecidableEq, Repr

/-- A matched `C/In`-`C/Out` pair: attributed to the entry punch's
calendar date with duration exit minus entry (lines 204-226). -/
def paired_shift (entry ex : Punch) : ShiftRec :=
  ⟨shift_date entry.time, ex.time - entry.time, false⟩

/-- An unmatched entry: an open shift with zero duration (lines
227-247). -/
def open_shift (entry : Punch) : ShiftRec :=
  ⟨shift_date entry.time, 0, true⟩

/-- Inner scan of the matcher (lines 179-202): walk forward from an
entry punch at time `t0`; a later `C/In` ends the scan unmatched; a
`C/Out` within the 20-hour cap is the match (also returning the
punches after it); an over-cap `C/Out` is skipped. -/
def find_exit (t0 : ℤ) : List Punch → Option (Punch × List Punch)
  | [] => none
  | r :: rest =>
    if r.status = Status.cin then none
    else if r.status = Status.cout then
      if r.time - t0 ≤ max_shift_seconds then some (r, rest)
      else find_exit t0 rest
    else find_exit t0 rest

theorem find_exit_length {t0 : ℤ} :
    ∀ {rs : List Punch} {ex : Punch} {rest2 : List Punch},
      find_exit t0 rs = some (ex, rest2) → rest2.length < rs.length := by
  intro rs
  induction rs with
  | nil => intro ex rest2 h; simp [find_exit] at h
  | cons r rest ih =>
    intro ex rest2 h
    rw [find_exit] at h
    by_cases h1 : r.status = Status.cin
    · rw [if_pos h1] at h; exact absurd h (by simp)
    · rw [if_neg h1] at h
      by_cases h2 : r.status = Status.cout
      · rw [if_pos h2] at h
        by_cases h3 : r.time - t0 ≤ max_shift_seconds
        · rw [if_pos h3] at h
          simp only [Option.some.injEq, Prod.mk.injEq] at h
          obtain ⟨rfl, rfl⟩ := h
          simp
        · rw [if_neg h3] at h
          exact Nat.lt_trans (ih h) (by simp)
      · rw [if_neg h2] at h
        exact Nat.lt_trans (ih h) (by simp)

/-- Fuel-indexed form of the matcher's main `while` loop (lines
170-253): each `C/In` is paired with `find_exit`, and on a match the
scan resumes after the consumed `C/Out`; non-`C/In` punches with no
pending entry are ignored. -/
def calc24_fuel : ℕ → List Punch → List ShiftRec
  | 0, _ => []
  | _, [] => []
  | fuel + 1, r :: rest =>
    if r.status = Status.cin then
      match find_exit r.time rest with
      | some (ex, rest2) => paired_shift r ex :: calc24_fuel fuel rest2
      | none => open_shift r :: calc24_fuel fuel rest
    else calc24_fuel fuel rest

/-- The matcher's main loop. -/
def calculate_24_hour_shifts_core (rs : List Punch) : List ShiftRec :=
  calc24_fuel rs.length rs

/-- Preprocessing (lines 158-168): drop a leading `C/Out` punch whose
time of day lies in the 01:00-07:00 ignore window (inclusive). -/
def drop_leading_out (rs : List Punch) : List Punch :=
  match rs with
  | [] => []
  | r :: rest =>
    if r.status = Status.cout ∧ 3600 ≤ r.time.emod 86400 ∧ r.time.emod 86400 ≤ 25200
    then rest
    else rs

/-- Function `calculate_24_hour_shifts`: preprocessing followed by the main
loop. -/
def calculate_24_hour_shifts (rs : List Punch) : List ShiftRec :=
  calculate_24_hour_shifts_core (drop_leading_out rs)

theorem calc24_fuel_congr :
    ∀ (f g : ℕ) (rs : List Punch), rs.length ≤ f → rs.length ≤ g →
      calc24_fuel f rs = calc24_fuel g rs
  | 0, g, rs, hf, _ => by
    have : rs = [] := List.length_eq_zero.mp (Nat.le_zero.mp hf)
    subst this
    cases g <;> rfl
  | f + 1, g, [], _, _ => by cases g <;> rfl
  | f + 1, g, r :: rest, hf, hg => by
    obtain ⟨g', rfl⟩ : ∃ g'', g = g'' + 1 := by
      cases g with
      | zero => simp at hg
      | succ n => exact ⟨n, rfl⟩
    rw [calc24_fuel, calc24_fuel]
    simp only [List.length_cons] at hf hg
    by_cases h1 : r.status = Status.cin
    · rw [if_pos h1, if_pos h1]
      cases hfe : find_exit r.time rest with
      | none =>
        exact congrArg (fun l => open_shift r :: l)
          (calc24_fuel_congr f g' rest (by omega) (by omega))
      | some pr =>
        obtain ⟨ex, rest2⟩ := pr
        have hlt := find_exit_length hfe
        exact congrArg (fun l => paired_shift r ex :: l)
          (calc24_fuel_congr f g' rest2 (by omega) (by omega))
    · rw [if_neg h1, if_neg h1, calc24_fuel_congr f g' rest (by omega) (by omega)]

theorem calculate_24_hour_shifts_core_cons (r : Punch) (rest : List Punch) :
    calculate_24_hour_shifts_core (r :: rest) =
      (if r.status = Status.cin then
        match find_exit r.time rest with
        | some (ex, rest2) => paired_shift r ex :: calculate_24_hour_shifts_core rest2
        | none => open_shift r :: calculate_24_hour_shifts_core rest
      else calculate_24_hour_shifts_core rest) := by
  rw [calculate_24_hour_shifts_core, List.length_cons, calc24_fuel]
  by_cases h1 : r.status = Status.cin
  · rw [if_pos h1, if_pos h1]
    cases hfe : find_exit r.time rest with
    | none => rfl
    | some pr =>
      obtain ⟨ex, rest2⟩ := pr
      have hlt := find_exit_length hfe
      exact congrArg (fun l => paired_shift r ex :: l)
        (calc24_fuel_congr rest.length rest2.length rest2 (by omega) le_rfl)
  · rw [if_neg h1, if_neg h1]
    rfl

theorem find_exit_spec {t0 : ℤ} :
    ∀ {rs : List Punch} {ex : Punch} {rest2 : List Punch},
      find_exit t0 rs = some (ex, rest2) →
      ex.status = Status.cout ∧ ex.time - t0 ≤ max_shift_seconds ∧
        ∃ pre, rs = pre ++ ex :: rest2 ∧
          ∀ p ∈ pre, p.status ≠ Status.cin ∧
            (p.status = Status.cout → max_shift_seconds < p.time - t0) := by
  intro rs
  induction rs with
  | nil => intro ex rest2 h; simp [find_exit] at h
  | cons r rest ih =>
    intro ex rest2 h
    rw [find_exit] at h
    by_cases h1 : r.status = Status.cin
    · rw [if_pos h1] at h
      exact absurd h (by simp)
    · rw [if_neg h1] at h
      by_cases h2 : r.status = Status.cout
      · rw [if_pos h2] at h
        by_cases h3 : r.time - t0 ≤ max_shift_seconds
        · rw [if_pos h3] at h
          simp only [Option.some.injEq, Prod.mk.injEq] at h
          obtain ⟨rfl, rfl⟩ := h
          exact ⟨h2, h3, [], rfl, by simp⟩
        · rw [if_neg h3] at h
          obtain ⟨hst, hcap, pre, rfl, hpre⟩ := ih h
          refine ⟨hst, hcap, r :: pre, rfl, ?_⟩
          intro p hp
          rcases List.mem_cons.mp hp with rfl | hp2
          · exact ⟨h1, fun _ => by omega⟩
          · exact hpre p hp2
      · rw [if_neg h2] at h
        obtain ⟨hst, hcap, pre, rfl, hpre⟩ := ih h
        refine ⟨hst, hcap, r :: pre, rfl, ?_⟩
        intro p hp
        rcases List.mem_cons.mp hp with rfl | hp2
        · exact ⟨h1, fun hcon => absurd hcon h2⟩
        · exact hpre p hp2

/-- C9 (corrected, counterexample): an exit punch exactly 20 hours
(72000 seconds, the cap itself) after the entry is MATCHED by the code
(`<=` comparison), producing a closed 20-hour shift, whereas the claim
says an exit "20 or more hours later" is skipped (which would leave the
entry open). -/
theorem c9_counterexample :
    calculate_24_hour_shifts [⟨0, Status.cin⟩, ⟨72000, Status.cout⟩] =
        [⟨0, 72000, false⟩] ∧
      (72000 : ℤ) = 20 * 3600 ∧
      calculate_24_hour_shifts [⟨0, Status.cin⟩, ⟨72000, Status.cout⟩] ≠
        [open_shift ⟨0, Status.cin⟩] := by
  refine ⟨by decide, by decide, by decide⟩

/-- C9 (amended): for every entry punch, the matcher pairs it with the
nearest following exit punch whose duration from the entry is AT MOST
the 20-hour cap; exit candidates strictly over the cap are skipped
without being matched; a later entry punch encountered before any
valid exit leaves the current entry as an open shift with zero
duration; a matched pair is attributed to the entry punch's calendar
date with duration exit minus entry. -/
theorem c9_overnight_matcher (r : Punch) (rest : List Punch)
    (h : r.status = Status.cin) :
    (∀ ex rest2, find_exit r.time rest = some (ex, rest2) →
      calculate_24_hour_shifts_core (r :: rest) =
        paired_shift r ex :: calculate_24_hour_shifts_core rest2 ∧
      (paired_shift r ex).date = shift_date r.time ∧
      (paired_shift r ex).duration = ex.time - r.time ∧
      (paired_shift r ex).is_open = false ∧
      ex.status = Status.cout ∧ ex.time - r.time ≤ max_shift_seconds ∧
      ∃ pre, rest = pre ++ ex :: rest2 ∧
        ∀ p ∈ pre, p.status ≠ Status.cin ∧
          (p.status = Status.cout → max_shift_seconds < p.time - r.time)) ∧
    (find_exit r.time rest = none →
      calculate_24_hour_shifts_core (r :: rest) =
        open_shift r :: calculate_24_hour_shifts_core rest ∧
      (open_shift r).duration = 0 ∧ (open_shift r).is_open = true) := by
  constructor
  · intro ex rest2 hfe
    obtain ⟨hst, hcap, pre, hsplit, hpre⟩ := find_exit_spec hfe
    refine ⟨?_, rfl, rfl, rfl, hst, hcap, pre, hsplit, hpre⟩
    rw [calculate_24_hour_shifts_core_cons, if_pos h, hfe]
  · intro hfe
    refine ⟨?_, rfl, rfl⟩
    rw [calculate_24_hour_shifts_core_cons, if_pos h, hfe]

/-- C9 witness: the spec's overnight pairing scenario — entry 23:30 on
day 1 (second 171000), exit 07:30 on day 2 (second 199800) — produces
one record on day 1 with duration 08:00:00 (28800 s). -/
theorem c9_witness :
    calculate_24_hour_shifts_core [⟨171000, Status.cin⟩, ⟨199800, Status.cout⟩] =
        paired_shift ⟨171000, Status.cin⟩ ⟨199800, Status.cout⟩ ::
          calculate_24_hour_shifts_core [] ∧
      paired_shift ⟨171000, Status.cin⟩ ⟨199800, Status.cout⟩ =
        ⟨1, 28800, false⟩ :=
  ⟨((c9_overnight_matcher ⟨171000, Status.cin⟩ [⟨199800, Status.cout⟩] rfl).1
      ⟨199800, Status.cout⟩ [] (by decide)).1, by decide⟩

/-! ### Fixed-break deduction (`data_processing.py`,
`_calculate_non_second_cup_shift_details` lines 361-375) -/

/-- The fixed-break step: when a deduction is configured, the shift
duration (seconds) reaches the threshold (hours), no break was detected
and at least 2 cleaned punches exist, move the deduction from shift to
break; when the shift does not strictly exceed the deduction, move the
whole shift into the break and zero the shift. -/
def apply_fixed_break_deduction (shift brk ded_minutes : ℤ) (thr_hours : ℚ)
    (cleaned_count : ℕ) : ℤ × ℤ :=
  if 0 < ded_minutes ∧ thr_hours ≤ (shift : ℚ) / 3600 ∧ brk = 0 ∧ 2 ≤ cleaned_count then
    if 60 * ded_minutes < shift then
      (shift - 60 * ded_minutes, brk + 60 * ded_minutes)
    else (0, brk + shift)
  else (shift, brk)

/-- C10: whenever the fixed-break deduction applies, the sum of shift
and break durations is preserved, the resulting shift duration is never
negative, and a shift not strictly exceeding the deduction is zeroed
with the whole shift moved into the break. -/
theorem c10_fixed_break (shift brk ded : ℤ) (thr : ℚ) (cnt : ℕ)
    (hg : 0 < ded ∧ thr ≤ (shift : ℚ) / 3600 ∧ brk = 0 ∧ 2 ≤ cnt) :
    (apply_fixed_break_deduction shift brk ded thr cnt).1 +
        (apply_fixed_break_deduction shift brk ded thr cnt).2 = shift + brk ∧
      0 ≤ (apply_fixed_break_deduction shift brk ded thr cnt).1 ∧
      (shift ≤ 60 * ded →
        (apply_fixed_break_deduction shift brk ded thr cnt).1 = 0 ∧
        (apply_fixed_break_deduction shift brk ded thr cnt).2 = brk + shift) := by
  rw [apply_fixed_break_deduction, if_pos hg]
  by_cases hlt : 60 * ded < shift
  · rw [if_pos hlt]
    exact ⟨by ring, by omega, fun hle => absurd hlt (by omega)⟩
  · rw [if_neg hlt]
    exact ⟨by ring, le_refl 0, fun _ => ⟨rfl, rfl⟩⟩

/-- C10 witness: an 8.5-hour shift with a 30-minute deduction at an
8.5-hour threshold. -/
theorem c10_witness :
    ((0 : ℤ) < 30 ∧ (17/2 : ℚ) ≤ ((30600 : ℤ) : ℚ) / 3600 ∧ (0 : ℤ) = 0 ∧ 2 ≤ 2) ∧
      ((apply_fixed_break_deduction 30600 0 30 (17/2) 2).1 +
          (apply_fixed_break_deduction 30600 0 30 (17/2) 2).2 = 30600 + 0 ∧
        0 ≤ (apply_fixed_break_deduction 30600 0 30 (17/2) 2).1 ∧
        ((30600 : ℤ) ≤ 60 * 30 →
          (apply_fixed_break_deduction 30600 0 30 (17/2) 2).1 = 0 ∧
          (apply_fixed_break_deduction 30600 0 30 (17/2) 2).2 = 0 + 30600)) :=
  have hg : (0 : ℤ) < 30 ∧ (17/2 : ℚ) ≤ ((30600 : ℤ) : ℚ) / 3600 ∧ (0 : ℤ) = 0 ∧ 2 ≤ 2 :=
    ⟨by norm_num, by norm_num, rfl, le_refl 2⟩
  ⟨hg, c10_fixed_break 30600 0 30 (17/2) 2 hg⟩
